import Mathlib

/-!
Shallow embedding of the replyke-node-api comment/article engine.

Entities follow `IComment` / `IArticle`; the store is a pair of document
lists.  Mongo primitives (`findOne`, `findById`, `findByIdAndUpdate`,
`findOneAndUpdate`, `findByIdAndDelete`) act on the first document
matching the filter, matching single-document semantics of the driver.
Route handlers are translated from `src/routers/articles.ts`
(the `/replyke-*` router) and the parallel `/comments` router.
-/

namespace Replyke

structure Author where
  id : Nat
  name : String
  img : Option String
deriving DecidableEq

structure Comment where
  id : Nat
  article_id : Nat
  body : String
  parent : Option Nat
  likes : List Nat
  likes_count : Int
  replies_count : Int
  created_at : Nat
  author : Author
deriving DecidableEq

structure Article where
  article_id : Nat
  likes : List Nat
  likes_count : Int
  comments_count : Int
  replies_count : Int
deriving DecidableEq

structure DB where
  comments : List Comment
  articles : List Article
deriving DecidableEq

/-- Result kinds surfaced by the route handlers (HTTP 4xx/5xx bodies). -/
inductive RErr where
  | CommentNotFound
  | ArticleNotFound
  | AlreadyLiked
  | NotLiked
  | NotFound
  | InvalidPagination
  | DeletionFailed
deriving DecidableEq

/-- Update the first element satisfying `p`, returning the updated document
and the updated list (`findByIdAndUpdate` / `findOneAndUpdate` with
`new: true`); `none` when no document matches. -/
def updateFirstRet (p : α → Bool) (f : α → α) : List α → Option (α × List α)
  | [] => none
  | x :: xs =>
    if p x then some (f x, f x :: xs)
    else
      match updateFirstRet p f xs with
      | none => none
      | some (a, l) => some (a, x :: l)

/-- Update the first element satisfying `p`; a missing match is a no-op
(an update-by-id whose target is absent does nothing). -/
def updateFirst (p : α → Bool) (f : α → α) (l : List α) : List α :=
  match updateFirstRet p f l with
  | none => l
  | some (_, l2) => l2

/-- Remove the first element satisfying `p`, returning the removed document
and the remaining list (`findByIdAndDelete`); `none` when nothing matches. -/
def extractFirst (p : α → Bool) : List α → Option (α × List α)
  | [] => none
  | x :: xs =>
    if p x then some (x, xs)
    else
      match extractFirst p xs with
      | none => none
      | some (a, l) => some (a, x :: l)

theorem extractFirst_eq_some {p : α → Bool} :
    ∀ {l l2 : List α} {a : α}, extractFirst p l = some (a, l2) →
    ∃ l0 l1, l = l0 ++ a :: l1 ∧ l2 = l0 ++ l1 ∧ (∀ x ∈ l0, p x = false) ∧ p a = true := by
  intro l
  induction l with
  | nil => intro l2 a h; simp [extractFirst] at h
  | cons x xs ih =>
    intro l2 a h
    by_cases hx : p x
    · simp [extractFirst, hx] at h
      exact ⟨[], xs, by simp [h.1, h.2], by simp [h.1, h.2], by simp, by simp [← h.1, hx]⟩
    · simp only [extractFirst, hx, if_false] at h
      cases hrec : extractFirst p xs with
      | none => rw [hrec] at h; simp at h
      | some v =>
        obtain ⟨b, l1⟩ := v
        rw [hrec] at h
        simp at h
        obtain ⟨l0, l1x, he, he2, hall, hp⟩ := ih hrec
        refine ⟨x :: l0, l1x, ?_, ?_, ?_, ?_⟩
        · simp [he, h.1]
        · simp [← h.2, he2]
        · intro y hy
          rcases List.mem_cons.mp hy with rfl | hy
          · simpa using hx
          · exact hall y hy
        · rw [← h.1]; exact hp

theorem extractFirst_eq_none {p : α → Bool} :
    ∀ {l : List α}, extractFirst p l = none ↔ ∀ x ∈ l, p x = false := by
  intro l
  induction l with
  | nil => simp [extractFirst]
  | cons x xs ih =>
    by_cases hx : p x
    · simp [extractFirst, hx]
    · simp only [extractFirst, hx, if_false]
      cases hrec : extractFirst p xs with
      | none =>
        simp only [List.mem_cons]
        constructor
        · intro _ y hy
          rcases hy with rfl | hy
          · simpa using hx
          · exact ih.mp hrec y hy
        · intro _; rfl
      | some v =>
        obtain ⟨b, l1⟩ := v
        simp only [List.mem_cons]
        constructor
        · intro h; simp at h
        · intro hall
          have : extractFirst p xs = none := ih.mpr (fun y hy => hall y (Or.inr hy))
          rw [hrec] at this; simp at this

theorem find?_append_first {p : α → Bool} {x : α} :
    ∀ {l0 : List α} (l1 : List α), (∀ y ∈ l0, p y = false) → p x = true →
    (l0 ++ x :: l1).find? p = some x := by
  intro l0
  induction l0 with
  | nil => intro l1 _ hx; simp [List.find?, hx]
  | cons y ys ih =>
    intro l1 hall hx
    have hy : p y = false := hall y (by simp)
    have hstep : ((y :: ys) ++ x :: l1).find? p = (ys ++ x :: l1).find? p := by
      apply List.find?_cons_of_neg
      simp [hy]
    rw [hstep]
    exact ih l1 (fun z hz => hall z (by simp [hz])) hx

theorem find?_of_extractFirst {p : α → Bool} {l l2 : List α} {a : α}
    (h : extractFirst p l = some (a, l2)) : l.find? p = some a := by
  obtain ⟨l0, l1, rfl, _, hall, hp⟩ := extractFirst_eq_some h
  exact find?_append_first l1 hall hp

theorem updateFirstRet_eq_some {p : α → Bool} {f : α → α} :
    ∀ {l l2 : List α} {a : α}, updateFirstRet p f l = some (a, l2) →
    ∃ l0 x l1, l = l0 ++ x :: l1 ∧ a = f x ∧ l2 = l0 ++ f x :: l1 ∧
      (∀ y ∈ l0, p y = false) ∧ p x = true := by
  intro l
  induction l with
  | nil => intro l2 a h; simp [updateFirstRet] at h
  | cons x xs ih =>
    intro l2 a h
    by_cases hx : p x
    · simp [updateFirstRet, hx] at h
      exact ⟨[], x, xs, by simp, h.1.symm, by simp [h.2], by simp, by simpa using hx⟩
    · simp only [updateFirstRet, hx, if_false] at h
      cases hrec : updateFirstRet p f xs with
      | none => rw [hrec] at h; simp at h
      | some v =>
        obtain ⟨b, l1⟩ := v
        rw [hrec] at h
        simp at h
        obtain ⟨l0, y, l1x, he, hb, he2, hall, hp⟩ := ih hrec
        refine ⟨x :: l0, y, l1x, by simp [he], by rw [← h.1]; exact hb, by simp [← h.2, he2], ?_, hp⟩
        intro z hz
        rcases List.mem_cons.mp hz with rfl | hz
        · simpa using hx
        · exact hall z hz

theorem updateFirstRet_eq_none {p : α → Bool} {f : α → α} :
    ∀ {l : List α}, updateFirstRet p f l = none ↔ ∀ x ∈ l, p x = false := by
  intro l
  induction l with
  | nil => simp [updateFirstRet]
  | cons x xs ih =>
    by_cases hx : p x
    · simp [updateFirstRet, hx]
    · simp only [updateFirstRet, hx, if_false]
      cases hrec : updateFirstRet p f xs with
      | none =>
        simp only [List.mem_cons]
        constructor
        · intro _ y hy
          rcases hy with rfl | hy
          · simpa using hx
          · exact ih.mp hrec y hy
        · intro _; rfl
      | some v =>
        obtain ⟨b, l1⟩ := v
        simp only [List.mem_cons]
        constructor
        · intro h; simp at h
        · intro hall
          have : updateFirstRet p f xs = none := ih.mpr (fun y hy => hall y (Or.inr hy))
          rw [hrec] at this; simp at this

theorem updateFirstRet_append {p : α → Bool} {f : α → α} {x : α} :
    ∀ {l0 : List α} (l1 : List α), (∀ y ∈ l0, p y = false) → p x = true →
    updateFirstRet p f (l0 ++ x :: l1) = some (f x, l0 ++ f x :: l1) := by
  intro l0
  induction l0 with
  | nil => intro l1 _ hx; simp [updateFirstRet, hx]
  | cons y ys ih =>
    intro l1 hall hx
    have hy : p y = false := hall y (by simp)
    show updateFirstRet p f (y :: (ys ++ x :: l1)) = _
    rw [updateFirstRet, hy]
    simp only [Bool.false_eq_true, if_false]
    rw [ih l1 (fun z hz => hall z (by simp [hz])) hx]
    simp

theorem updateFirst_of_none {p : α → Bool} {f : α → α} {l : List α}
    (h : ∀ x ∈ l, p x = false) : updateFirst p f l = l := by
  unfold updateFirst
  rw [updateFirstRet_eq_none.mpr h]

theorem updateFirst_append {p : α → Bool} {f : α → α} {l0 l1 : List α} {x : α}
    (hall : ∀ y ∈ l0, p y = false) (hx : p x = true) :
    updateFirst p f (l0 ++ x :: l1) = l0 ++ f x :: l1 := by
  unfold updateFirst
  rw [updateFirstRet_append l1 hall hx]

theorem extractFirst_append {p : α → Bool} {x : α} :
    ∀ {l0 : List α} (l1 : List α), (∀ y ∈ l0, p y = false) → p x = true →
    extractFirst p (l0 ++ x :: l1) = some (x, l0 ++ l1) := by
  intro l0
  induction l0 with
  | nil => intro l1 _ hx; simp [extractFirst, hx]
  | cons y ys ih =>
    intro l1 hall hx
    have hy : p y = false := hall y (by simp)
    show extractFirst p (y :: (ys ++ x :: l1)) = _
    rw [extractFirst, hy]
    simp only [Bool.false_eq_true, if_false]
    rw [ih l1 (fun z hz => hall z (by simp [hz])) hx]
    simp

theorem find?_eq_some_decomp {p : α → Bool} :
    ∀ {l : List α} {a : α}, l.find? p = some a →
    ∃ l0 l1, l = l0 ++ a :: l1 ∧ (∀ x ∈ l0, p x = false) ∧ p a = true := by
  intro l
  induction l with
  | nil => intro a h; simp at h
  | cons x xs ih =>
    intro a h
    by_cases hx : p x
    · rw [List.find?_cons_of_pos _ hx] at h
      refine ⟨[], xs, by simp [← Option.some_inj.mp h], by simp, ?_⟩
      exact (Option.some_inj.mp h) ▸ hx
    · rw [List.find?_cons_of_neg _ hx] at h
      obtain ⟨l0, l1, rfl, hall, hp⟩ := ih h
      refine ⟨x :: l0, l1, by simp, ?_, hp⟩
      intro y hy
      rcases List.mem_cons.mp hy with rfl | hy
      · simpa using hx
      · exact hall y hy

/-! ### Route handlers

Ids of documents and users are modelled as `Nat`; `article_id` is the
external key.  Each mutating handler returns the HTTP payload together
with the post-request store. -/

/-- Update document of `$inc likes_count: 1, $push likes: uid` on a comment. -/
def likeUpdC (uid : Nat) (c : Comment) : Comment :=
  { c with likes_count := c.likes_count + 1, likes := c.likes ++ [uid] }

/-- Update document of `$inc likes_count: -1, $pull likes: uid` on a comment. -/
def unlikeUpdC (uid : Nat) (c : Comment) : Comment :=
  { c with likes_count := c.likes_count - 1, likes := c.likes.filter (fun l => !(l == uid)) }

/-- Update document of `$inc likes_count: 1, $push likes: uid` on an article. -/
def likeUpdA (uid : Nat) (a : Article) : Article :=
  { a with likes_count := a.likes_count + 1, likes := a.likes ++ [uid] }

/-- Update document of `$inc likes_count: -1, $pull likes: uid` on an article. -/
def unlikeUpdA (uid : Nat) (a : Article) : Article :=
  { a with likes_count := a.likes_count - 1, likes := a.likes.filter (fun l => !(l == uid)) }

/-- Aggregate lazily created by the first like of an unknown `article_id`. -/
def freshLikeArticle (aid uid : Nat) : Article :=
  { article_id := aid, likes := [uid], likes_count := 1, comments_count := 0, replies_count := 0 }

/-- POST `/comments/like`: reject a second like by the same user, otherwise
`$inc likes_count` and `$push` the user id, answering with the manually
rebuilt comment object. -/
def likeCommentRoute (db : DB) (cid uid : Nat) : Except RErr Comment × DB :=
  match db.comments.find? (fun c => c.id == cid) with
  | none => (.error .CommentNotFound, db)
  | some comment =>
    if comment.likes.contains uid then (.error .AlreadyLiked, db)
    else
      (.ok (likeUpdC uid comment),
       { db with comments := updateFirst (fun c => c.id == cid) (likeUpdC uid) db.comments })

/-- POST `/comments/unlike`: reject when the user never liked the comment,
otherwise `$inc likes_count` by `-1` and `$pull` the user id. -/
def unlikeCommentRoute (db : DB) (cid uid : Nat) : Except RErr Comment × DB :=
  match db.comments.find? (fun c => c.id == cid) with
  | none => (.error .CommentNotFound, db)
  | some comment =>
    if !(comment.likes.contains uid) then (.error .NotLiked, db)
    else
      (.ok (unlikeUpdC uid comment),
       { db with comments := updateFirst (fun c => c.id == cid) (unlikeUpdC uid) db.comments })

/-- POST `/replyke-articles/like`: like an existing article under the
already-liked guard, or lazily create the aggregate with one like. -/
def likeArticleRoute (db : DB) (aid uid : Nat) : Except RErr Article × DB :=
  match db.articles.find? (fun a => a.article_id == aid) with
  | some article =>
    if article.likes.contains uid then (.error .AlreadyLiked, db)
    else
      (.ok (likeUpdA uid article),
       { db with articles := updateFirst (fun a => a.article_id == aid) (likeUpdA uid) db.articles })
  | none =>
    (.ok (freshLikeArticle aid uid),
     { db with articles := db.articles ++ [freshLikeArticle aid uid] })

/-- POST `/replyke-articles/unlike`: 404 on a missing aggregate, reject when
the user never liked it, otherwise decrement and `$pull`. -/
def unlikeArticleRoute (db : DB) (aid uid : Nat) : Except RErr Article × DB :=
  match db.articles.find? (fun a => a.article_id == aid) with
  | none => (.error .ArticleNotFound, db)
  | some article =>
    if !(article.likes.contains uid) then (.error .NotLiked, db)
    else
      (.ok (unlikeUpdA uid article),
       { db with articles := updateFirst (fun a => a.article_id == aid) (unlikeUpdA uid) db.articles })

/-- PATCH `/replyke-comments`: `findOneAndUpdate` of the body with
`new: true`; 404 when the id does not resolve. -/
def updateCommentRoute (db : DB) (cid : Nat) (newBody : String) : Except RErr Comment × DB :=
  match updateFirstRet (fun c => c.id == cid) (fun c => { c with body := newBody }) db.comments with
  | none => (.error .NotFound, db)
  | some (c2, l2) => (.ok c2, { db with comments := l2 })

/-- POST `/replyke-comments`: save the new comment, bump the parent comment
when present (no-op on a dangling parent id), then bump or lazily create
the article aggregate.  `now` and `newId` stand for the wall clock and the
storage-assigned id. -/
def createCommentRoute (db : DB) (aid : Nat) (commentBody : String) (parentQ : Option Nat)
    (auth : Author) (now newId : Nat) : Except RErr Comment × DB :=
  let comment : Comment :=
    { id := newId, article_id := aid, body := commentBody, parent := parentQ,
      likes := [], likes_count := 0, replies_count := 0, created_at := now, author := auth }
  let comments1 := db.comments ++ [comment]
  let bumpParent := fun (c : Comment) => { c with replies_count := c.replies_count + 1 }
  let comments2 :=
    match parentQ with
    | some pid => updateFirst (fun c => c.id == pid) bumpParent comments1
    | none => comments1
  let bumpReplies := fun (a : Article) => { a with replies_count := a.replies_count + 1 }
  let bumpComments := fun (a : Article) => { a with comments_count := a.comments_count + 1 }
  let freshArticle : Article :=
    { article_id := aid, likes := [], likes_count := 0, comments_count := 1, replies_count := 0 }
  let articles2 :=
    match db.articles.find? (fun a => a.article_id == aid) with
    | some _ =>
      if parentQ.isSome then
        updateFirst (fun a => a.article_id == aid) bumpReplies db.articles
      else
        updateFirst (fun a => a.article_id == aid) bumpComments db.articles
    | none => db.articles ++ [freshArticle]
  (.ok comment, { comments := comments2, articles := articles2 })

/-! ### Like guard and round-trip -/

theorem contains_eq_true_of_mem {l : List Nat} {u : Nat} (h : u ∈ l) : l.contains u = true := by
  simpa [List.contains] using h

theorem contains_eq_false_of_not_mem {l : List Nat} {u : Nat} (h : u ∉ l) : l.contains u = false := by
  simpa [List.contains] using h

/-- C4: if the target entity already records `uid` in `likes`, liking fails
with `AlreadyLiked` and mutates nothing; consequently a second like by the
same user leaves the store exactly as after the first like, for comments
and for articles alike. -/
theorem like_idempotent_guard (db : DB) (cid aid uid : Nat) :
    (∀ c, db.comments.find? (fun x => x.id == cid) = some c → uid ∈ c.likes →
      likeCommentRoute db cid uid = (.error .AlreadyLiked, db)) ∧
    (∀ a, db.articles.find? (fun x => x.article_id == aid) = some a → uid ∈ a.likes →
      likeArticleRoute db aid uid = (.error .AlreadyLiked, db)) ∧
    (likeCommentRoute (likeCommentRoute db cid uid).2 cid uid).2 = (likeCommentRoute db cid uid).2 ∧
    (likeArticleRoute (likeArticleRoute db aid uid).2 aid uid).2 = (likeArticleRoute db aid uid).2 := by
  refine ⟨?_, ?_, ?_, ?_⟩
  · intro c hf hmem
    simp [likeCommentRoute, hf, hmem]
  · intro a hf hmem
    simp [likeArticleRoute, hf, hmem]
  · cases hf : db.comments.find? (fun x => x.id == cid) with
    | none => simp [likeCommentRoute, hf]
    | some c =>
      by_cases hmem : uid ∈ c.likes
      · simp [likeCommentRoute, hf, hmem]
      · obtain ⟨l0, l1, hdec, hall, hpc⟩ := find?_eq_some_decomp hf
        have hcon := contains_eq_false_of_not_mem hmem
        have h1 : likeCommentRoute db cid uid =
            (.ok (likeUpdC uid c), { db with comments := l0 ++ likeUpdC uid c :: l1 }) := by
          simp only [likeCommentRoute, hf, hcon, Bool.false_eq_true, if_false]
          rw [hdec, updateFirst_append hall hpc]
        rw [h1]
        have hpc2 : ((likeUpdC uid c).id == cid) = true := hpc
        have hf2 : (l0 ++ likeUpdC uid c :: l1).find? (fun x => x.id == cid) =
            some (likeUpdC uid c) := find?_append_first l1 hall hpc2
        have hmem2 : uid ∈ (likeUpdC uid c).likes := by simp [likeUpdC]
        simp [likeCommentRoute, hf2, hmem2]
  · cases hf : db.articles.find? (fun x => x.article_id == aid) with
    | none =>
      have hall : ∀ x ∈ db.articles, (x.article_id == aid) = false := by
        intro x hx
        have := List.find?_eq_none.mp hf x hx
        simpa using this
      have h1 : likeArticleRoute db aid uid =
          (.ok (freshLikeArticle aid uid),
           { db with articles := db.articles ++ [freshLikeArticle aid uid] }) := by
        simp [likeArticleRoute, hf]
      rw [h1]
      have hfr : ((freshLikeArticle aid uid).article_id == aid) = true := by simp [freshLikeArticle]
      have hf2 : (db.articles ++ [freshLikeArticle aid uid]).find?
          (fun x => x.article_id == aid) = some (freshLikeArticle aid uid) :=
        find?_append_first [] hall hfr
      have hmem2 : uid ∈ (freshLikeArticle aid uid).likes := by simp [freshLikeArticle]
      simp [likeArticleRoute, hf2, hmem2]
    | some a =>
      by_cases hmem : uid ∈ a.likes
      · simp [likeArticleRoute, hf, hmem]
      · obtain ⟨l0, l1, hdec, hall, hpa⟩ := find?_eq_some_decomp hf
        have hcon := contains_eq_false_of_not_mem hmem
        have h1 : likeArticleRoute db aid uid =
            (.ok (likeUpdA uid a), { db with articles := l0 ++ likeUpdA uid a :: l1 }) := by
          simp only [likeArticleRoute, hf, hcon, Bool.false_eq_true, if_false]
          rw [hdec, updateFirst_append hall hpa]
        rw [h1]
        have hpa2 : ((likeUpdA uid a).article_id == aid) = true := hpa
        have hf2 : (l0 ++ likeUpdA uid a :: l1).find? (fun x => x.article_id == aid) =
            some (likeUpdA uid a) := find?_append_first l1 hall hpa2
        have hmem2 : uid ∈ (likeUpdA uid a).likes := by simp [likeUpdA]
        simp [likeArticleRoute, hf2, hmem2]

theorem filter_ne_eq_self {l : List Nat} {uid : Nat} (h : uid ∉ l) :
    l.filter (fun x => !(x == uid)) = l := by
  apply List.filter_eq_self.mpr
  intro x hx
  simp only [Bool.not_eq_true', beq_eq_false_iff_ne, ne_eq]
  exact fun he => h (he ▸ hx)

theorem unlikeUpdC_likeUpdC {c : Comment} {uid : Nat} (hmem : uid ∉ c.likes) :
    unlikeUpdC uid (likeUpdC uid c) = c := by
  have h1 := filter_ne_eq_self hmem
  cases c with
  | mk i a b par likes lc rc ca au =>
    simp only at h1
    simp [unlikeUpdC, likeUpdC, List.filter_append, h1]

theorem unlikeUpdA_likeUpdA {a : Article} {uid : Nat} (hmem : uid ∉ a.likes) :
    unlikeUpdA uid (likeUpdA uid a) = a := by
  have h1 := filter_ne_eq_self hmem
  cases a with
  | mk aid likes lc cc rc =>
    simp only at h1
    simp [unlikeUpdA, likeUpdA, List.filter_append, h1]

/-- C5: liking then unliking with a user id not yet in the `likes` set
restores the entity (comment or article) store exactly to its pre-like
state: the `$push/$inc` pair is undone by the `$pull/$inc` pair. -/
theorem like_unlike_roundtrip (db : DB) (cid aid uid : Nat) :
    (∀ c, db.comments.find? (fun x => x.id == cid) = some c → uid ∉ c.likes →
      (unlikeCommentRoute (likeCommentRoute db cid uid).2 cid uid).2 = db) ∧
    (∀ a, db.articles.find? (fun x => x.article_id == aid) = some a → uid ∉ a.likes →
      (unlikeArticleRoute (likeArticleRoute db aid uid).2 aid uid).2 = db) := by
  obtain ⟨dbc, dba⟩ := db
  constructor
  · intro c hf hmem
    simp only at hf
    obtain ⟨l0, l1, hdec, hall, hpc⟩ := find?_eq_some_decomp hf
    have hcon := contains_eq_false_of_not_mem hmem
    have h1 : likeCommentRoute ⟨dbc, dba⟩ cid uid =
        (.ok (likeUpdC uid c), ⟨l0 ++ likeUpdC uid c :: l1, dba⟩) := by
      simp only [likeCommentRoute, hf, hcon, Bool.false_eq_true, if_false]
      rw [hdec, updateFirst_append hall hpc]
    rw [h1]
    have hpc2 : ((likeUpdC uid c).id == cid) = true := hpc
    have hf2 : (l0 ++ likeUpdC uid c :: l1).find? (fun x => x.id == cid) =
        some (likeUpdC uid c) := find?_append_first l1 hall hpc2
    have hmem2 : uid ∈ (likeUpdC uid c).likes := by simp [likeUpdC]
    have hcon2 := contains_eq_true_of_mem hmem2
    have hupd := @updateFirst_append Comment (fun x => x.id == cid) (unlikeUpdC uid) l0 l1 (likeUpdC uid c) hall hpc2
    have h2 : unlikeCommentRoute ⟨l0 ++ likeUpdC uid c :: l1, dba⟩ cid uid =
        (.ok (unlikeUpdC uid (likeUpdC uid c)),
         ⟨l0 ++ unlikeUpdC uid (likeUpdC uid c) :: l1, dba⟩) := by
      simp only [unlikeCommentRoute, hf2, hcon2, Bool.not_true, Bool.false_eq_true, if_false]
      rw [hupd]
    rw [h2, unlikeUpdC_likeUpdC hmem]
    rw [← hdec]
  · intro a hf hmem
    simp only at hf
    obtain ⟨l0, l1, hdec, hall, hpa⟩ := find?_eq_some_decomp hf
    have hcon := contains_eq_false_of_not_mem hmem
    have h1 : likeArticleRoute ⟨dbc, dba⟩ aid uid =
        (.ok (likeUpdA uid a), ⟨dbc, l0 ++ likeUpdA uid a :: l1⟩) := by
      simp only [likeArticleRoute, hf, hcon, Bool.false_eq_true, if_false]
      rw [hdec, updateFirst_append hall hpa]
    rw [h1]
    have hpa2 : ((likeUpdA uid a).article_id == aid) = true := hpa
    have hf2 : (l0 ++ likeUpdA uid a :: l1).find? (fun x => x.article_id == aid) =
        some (likeUpdA uid a) := find?_append_first l1 hall hpa2
    have hmem2 : uid ∈ (likeUpdA uid a).likes := by simp [likeUpdA]
    have hcon2 := contains_eq_true_of_mem hmem2
    have hupd := @updateFirst_append Article (fun x => x.article_id == aid) (unlikeUpdA uid) l0 l1 (likeUpdA uid a) hall hpa2
    have h2 : unlikeArticleRoute ⟨dbc, l0 ++ likeUpdA uid a :: l1⟩ aid uid =
        (.ok (unlikeUpdA uid (likeUpdA uid a)),
         ⟨dbc, l0 ++ unlikeUpdA uid (likeUpdA uid a) :: l1⟩) := by
      simp only [unlikeArticleRoute, hf2, hcon2, Bool.not_true, Bool.false_eq_true, if_false]
      rw [hupd]
    rw [h2, unlikeUpdA_likeUpdA hmem]
    rw [← hdec]

/-! ### Concrete fixtures for witnesses -/

def authW : Author := { id := 1, name := "u", img := none }

def cW : Comment :=
  { id := 1, article_id := 10, body := "hi", parent := none, likes := [7],
    likes_count := 1, replies_count := 0, created_at := 0, author := authW }

def aW : Article :=
  { article_id := 10, likes := [7], likes_count := 1, comments_count := 1, replies_count := 0 }

def dbW : DB := { comments := [cW], articles := [aW] }

theorem like_idempotent_guard_witness :
    (dbW.comments.find? (fun x => x.id == 1) = some cW ∧ 7 ∈ cW.likes ∧
      likeCommentRoute dbW 1 7 = (.error .AlreadyLiked, dbW)) ∧
    (dbW.articles.find? (fun x => x.article_id == 10) = some aW ∧ 7 ∈ aW.likes ∧
      likeArticleRoute dbW 10 7 = (.error .AlreadyLiked, dbW)) :=
  ⟨⟨rfl, by decide, (like_idempotent_guard dbW 1 10 7).1 cW rfl (by decide)⟩,
   ⟨rfl, by decide, (like_idempotent_guard dbW 1 10 7).2.1 aW rfl (by decide)⟩⟩

theorem like_unlike_roundtrip_witness :
    (dbW.comments.find? (fun x => x.id == 1) = some cW ∧ 8 ∉ cW.likes ∧
      (unlikeCommentRoute (likeCommentRoute dbW 1 8).2 1 8).2 = dbW) ∧
    (dbW.articles.find? (fun x => x.article_id == 10) = some aW ∧ 8 ∉ aW.likes ∧
      (unlikeArticleRoute (likeArticleRoute dbW 10 8).2 10 8).2 = dbW) :=
  ⟨⟨rfl, by decide, (like_unlike_roundtrip dbW 1 10 8).1 cW rfl (by decide)⟩,
   ⟨rfl, by decide, (like_unlike_roundtrip dbW 1 10 8).2 aW rfl (by decide)⟩⟩

/-! ### Comment body update -/

/-- C8: `UpdateCommentBody` replaces `body` of the resolved comment in
place — every other field of that comment and every other document is
untouched — and fails with `NotFound` when the id does not resolve. -/
theorem updateCommentBody_spec (db : DB) (cid : Nat) (nb : String) :
    (∀ c l0 l1, db.comments = l0 ++ c :: l1 → (∀ x ∈ l0, (x.id == cid) = false) →
      (c.id == cid) = true →
      updateCommentRoute db cid nb =
        (.ok { c with body := nb }, { db with comments := l0 ++ { c with body := nb } :: l1 })) ∧
    (db.comments.find? (fun x => x.id == cid) = none →
      updateCommentRoute db cid nb = (.error .NotFound, db)) := by
  constructor
  · intro c l0 l1 hdec hall hpc
    simp only [updateCommentRoute, hdec, updateFirstRet_append l1 hall hpc]
  · intro hf
    have hall : ∀ x ∈ db.comments, ((fun y : Comment => y.id == cid) x) = false :=
      fun x hx => by simpa using List.find?_eq_none.mp hf x hx
    simp only [updateCommentRoute, updateFirstRet_eq_none.mpr hall]

theorem updateCommentBody_spec_witness :
    (dbW.comments = [] ++ cW :: [] ∧ (cW.id == 1) = true ∧
      updateCommentRoute dbW 1 "new" =
        (.ok { cW with body := "new" }, { dbW with comments := [{ cW with body := "new" }] })) ∧
    (dbW.comments.find? (fun x => x.id == 2) = none ∧
      updateCommentRoute dbW 2 "new" = (.error .NotFound, dbW)) :=
  ⟨⟨rfl, rfl,
     (updateCommentBody_spec dbW 1 "new").1 cW [] [] rfl (by intro x hx; cases hx) rfl⟩,
   ⟨rfl, (updateCommentBody_spec dbW 2 "new").2 rfl⟩⟩

/-! ### Comment creation -/

/-- C9: creating a comment whose `parent` id resolves to no stored comment
still succeeds: the child is saved and returned, the parent
`replies_count` increment is a no-op, and the comment store gains exactly
the new comment.  (`newId ≠ pid` records that the storage-assigned id does
not collide with the dangling reference.) -/
theorem createComment_danglingParent (db : DB) (aid : Nat) (b : String) (pid : Nat)
    (auth : Author) (now newId : Nat)
    (hp : db.comments.find? (fun c => c.id == pid) = none) (hfresh : newId ≠ pid) :
    ∃ c, (createCommentRoute db aid b (some pid) auth now newId).1 = .ok c ∧
      (createCommentRoute db aid b (some pid) auth now newId).2.comments = db.comments ++ [c] ∧
      c.body = b ∧ c.parent = some pid ∧ c.article_id = aid := by
  refine ⟨{ id := newId, article_id := aid, body := b, parent := some pid, likes := [],
            likes_count := 0, replies_count := 0, created_at := now, author := auth }, ?_, ?_, rfl, rfl, rfl⟩
  · rfl
  · have hall : ∀ x ∈ db.comments ++
        [({ id := newId, article_id := aid, body := b, parent := some pid, likes := [],
            likes_count := 0, replies_count := 0, created_at := now, author := auth } : Comment)],
        ((fun c : Comment => c.id == pid) x) = false := by
      intro x hx
      rcases List.mem_append.mp hx with hx | hx
      · simpa using List.find?_eq_none.mp hp x hx
      · rcases List.mem_singleton.mp hx with rfl
        simpa using hfresh
    simp only [createCommentRoute]
    rw [updateFirst_of_none hall]

theorem createComment_danglingParent_witness :
    (dbW.comments.find? (fun c => c.id == 99) = none ∧ (5 : Nat) ≠ 99) ∧
    ∃ c, (createCommentRoute dbW 10 "re" (some 99) authW 3 5).1 = .ok c ∧
      (createCommentRoute dbW 10 "re" (some 99) authW 3 5).2.comments = dbW.comments ++ [c] ∧
      c.body = "re" ∧ c.parent = some 99 ∧ c.article_id = 10 :=
  ⟨⟨rfl, by decide⟩, createComment_danglingParent dbW 10 "re" 99 authW 3 5 rfl (by decide)⟩

/-- C3 counterexample input: a reply (parent present) posted to an
`article_id` with no aggregate document. -/
def dbEmpty : DB := { comments := [], articles := [] }

/-- C3, counterexample: with no stored article, creating a comment WITH a
parent still seeds the new aggregate with `comments_count = 1` and
`replies_count = 0`; the claimed seeding of the reply counter
(`replies_count = 1`, `comments_count = 0`) does not happen. -/
theorem createComment_missingArticle_counterexample :
    (createCommentRoute dbEmpty 1 "re" (some 99) authW 0 5).2.articles =
      [{ article_id := 1, likes := [], likes_count := 0, comments_count := 1, replies_count := 0 }] ∧
    ¬ ∃ a ∈ (createCommentRoute dbEmpty 1 "re" (some 99) authW 0 5).2.articles,
        a.replies_count = 1 ∧ a.comments_count = 0 := by
  constructor
  · rfl
  · decide

/-- C3 as amended: when the article aggregate exists, `comments_count` is
bumped for a root comment and `replies_count` for a reply; when it is
missing, a fresh aggregate is created with `comments_count = 1` and every
other counter zero — regardless of whether the new comment is a root or a
reply (the code assumes a missing article implies a root comment). -/
theorem createComment_articleCounters (db : DB) (aid : Nat) (b : String)
    (auth : Author) (now newId : Nat) :
    (∀ a l0 l1, db.articles = l0 ++ a :: l1 → (∀ x ∈ l0, (x.article_id == aid) = false) →
      (a.article_id == aid) = true →
      (createCommentRoute db aid b none auth now newId).2.articles =
        l0 ++ { a with comments_count := a.comments_count + 1 } :: l1) ∧
    (∀ a l0 l1 pid, db.articles = l0 ++ a :: l1 → (∀ x ∈ l0, (x.article_id == aid) = false) →
      (a.article_id == aid) = true →
      (createCommentRoute db aid b (some pid) auth now newId).2.articles =
        l0 ++ { a with replies_count := a.replies_count + 1 } :: l1) ∧
    (db.articles.find? (fun x => x.article_id == aid) = none → ∀ parentQ,
      (createCommentRoute db aid b parentQ auth now newId).2.articles =
        db.articles ++
          [{ article_id := aid, likes := [], likes_count := 0,
             comments_count := 1, replies_count := 0 }]) := by
  refine ⟨?_, ?_, ?_⟩
  · intro a l0 l1 hdec hall hpa
    have hf : db.articles.find? (fun x => x.article_id == aid) = some a := by
      rw [hdec]; exact find?_append_first l1 hall hpa
    simp only [createCommentRoute, hf, Option.isSome_none, Bool.false_eq_true, if_false]
    rw [hdec, updateFirst_append hall hpa]
  · intro a l0 l1 pid hdec hall hpa
    have hf : db.articles.find? (fun x => x.article_id == aid) = some a := by
      rw [hdec]; exact find?_append_first l1 hall hpa
    simp only [createCommentRoute, hf, Option.isSome_some, if_true]
    rw [hdec, updateFirst_append hall hpa]
  · intro hf parentQ
    simp only [createCommentRoute, hf]

theorem createComment_articleCounters_witness :
    (dbW.articles = [] ++ aW :: [] ∧ (aW.article_id == 10) = true ∧
      (createCommentRoute dbW 10 "c" none authW 3 5).2.articles =
        [] ++ { aW with comments_count := aW.comments_count + 1 } :: []) ∧
    ((createCommentRoute dbW 10 "r" (some 1) authW 3 5).2.articles =
        [] ++ { aW with replies_count := aW.replies_count + 1 } :: []) ∧
    (dbEmpty.articles.find? (fun x => x.article_id == 2) = none ∧
      (createCommentRoute dbEmpty 2 "c" none authW 3 5).2.articles =
        dbEmpty.articles ++
          [{ article_id := 2, likes := [], likes_count := 0,
             comments_count := 1, replies_count := 0 }]) :=
  ⟨⟨rfl, rfl,
     (createComment_articleCounters dbW 10 "c" authW 3 5).1 aW [] []
       rfl (by intro x hx; cases hx) rfl⟩,
   (createComment_articleCounters dbW 10 "r" authW 3 5).2.1 aW [] [] 1
     rfl (by intro x hx; cases hx) rfl,
   ⟨rfl, (createComment_articleCounters dbEmpty 2 "c" authW 3 5).2.2 rfl none⟩⟩

/-! ### Comment listing: validation, sort, pagination

Query parameters arrive as strings; `Number(*)` coercion is modelled by
`Option ℚ` (`none` is `NaN`).  The store's `.sort` is modelled as a sort
by the requested order; `{likes_count: -1, created_at: -1}` is
`popularOrder`, `{created_at: -1}` is `newestOrder`, `{created_at: 1}` is
`oldestOrder`, and the empty sort document leaves the list untouched. -/

def popularOrder (a b : Comment) : Prop :=
  b.likes_count < a.likes_count ∨ (a.likes_count = b.likes_count ∧ b.created_at ≤ a.created_at)

def newestOrder (a b : Comment) : Prop := b.created_at ≤ a.created_at

def oldestOrder (a b : Comment) : Prop := a.created_at ≤ b.created_at

instance : DecidableRel popularOrder := fun a b => by unfold popularOrder; infer_instance

instance : DecidableRel newestOrder := fun a b => by unfold newestOrder; infer_instance

instance : DecidableRel oldestOrder := fun a b => by unfold oldestOrder; infer_instance

instance : IsTotal Comment popularOrder := ⟨by intro a b; unfold popularOrder; omega⟩

instance : IsTrans Comment popularOrder := ⟨by intro a b c; unfold popularOrder; omega⟩

instance : IsTotal Comment newestOrder := ⟨by intro a b; unfold newestOrder; omega⟩

instance : IsTrans Comment newestOrder := ⟨by intro a b c; unfold newestOrder; omega⟩

instance : IsTotal Comment oldestOrder := ⟨by intro a b; unfold oldestOrder; omega⟩

instance : IsTrans Comment oldestOrder := ⟨by intro a b c; unfold oldestOrder; omega⟩

/-- Filter document `{article_id, parent}`: an omitted `parent` is stripped
from the query, a present one must match exactly. -/
def commentMatches (aid : Nat) (parentQ : Option Nat) (c : Comment) : Bool :=
  c.article_id == aid &&
    (match parentQ with
     | none => true
     | some p => c.parent == some p)

/-- Sort document resolved from `sort_by`; unrecognized values leave the
empty sort document `{}` (store order). -/
def resolveSort (sortBy : String) (l : List Comment) : List Comment :=
  if sortBy = "popular" then l.insertionSort popularOrder
  else if sortBy = "newest" then l.insertionSort newestOrder
  else if sortBy = "oldest" then l.insertionSort oldestOrder
  else l

/-- GET `/comments`: validate `limit`/`page`, then query with the resolved
sort, skipping `(page - 1) * limit` documents and returning at most
`limit`. -/
def listCommentsRoute (db : DB) (aid : Nat) (parentQ : Option Nat) (sortBy : String)
    (page limit : Option ℚ) : Except RErr (List Comment) :=
  match limit with
  | none => .error .InvalidPagination
  | some lq =>
    match page with
    | none => .error .InvalidPagination
    | some pq =>
      if pq < 1 then .error .InvalidPagination
      else if pq.isInt then
        .ok (((resolveSort sortBy (db.comments.filter (commentMatches aid parentQ))).drop
          (⌊(pq - 1) * lq⌋.toNat)).take ⌊lq⌋.toNat)
      else .error .InvalidPagination

/-- C6: a `NaN` `limit` or `page`, a `page` below one, or a fractional
`page` is rejected with `InvalidPagination`; the route returns before any
store query runs. -/
theorem listComments_invalidPagination (db : DB) (aid : Nat) (parentQ : Option Nat)
    (sortBy : String) (page limit : Option ℚ)
    (h : limit = none ∨ page = none ∨ (∃ q, page = some q ∧ q < 1) ∨
      (∃ q, page = some q ∧ q.isInt = false)) :
    listCommentsRoute db aid parentQ sortBy page limit = .error .InvalidPagination := by
  rcases h with rfl | rfl | ⟨q, rfl, hq⟩ | ⟨q, rfl, hq⟩
  · rfl
  · cases limit <;> rfl
  · cases limit with
    | none => rfl
    | some lq => simp [listCommentsRoute, hq]
  · cases limit with
    | none => rfl
    | some lq =>
      by_cases h1 : q < 1
      · simp [listCommentsRoute, h1]
      · simp [listCommentsRoute, h1, hq]

theorem listComments_invalidPagination_witness :
    ((some (1 : ℚ) = none ∨ (some (0 : ℚ)) = (none : Option ℚ) ∨
        (∃ q, some (0 : ℚ) = some q ∧ q < 1) ∨
        (∃ q, some (0 : ℚ) = some q ∧ q.isInt = false)) ∧
      listCommentsRoute dbW 10 none "newest" (some 0) (some 1) = .error .InvalidPagination) ∧
    ((some (1 : ℚ) = none ∨ (some (mkRat 3 2)) = (none : Option ℚ) ∨
        (∃ q, some (mkRat 3 2) = some q ∧ q < 1) ∨
        (∃ q, some (mkRat 3 2) = some q ∧ q.isInt = false)) ∧
      listCommentsRoute dbW 10 none "newest" (some (mkRat 3 2)) (some 1) =
        .error .InvalidPagination) :=
  ⟨⟨Or.inr (Or.inr (Or.inl ⟨0, rfl, by decide⟩)),
    listComments_invalidPagination dbW 10 none "newest" (some 0) (some 1)
      (Or.inr (Or.inr (Or.inl ⟨0, rfl, by decide⟩)))⟩,
   ⟨Or.inr (Or.inr (Or.inr ⟨mkRat 3 2, rfl, by decide⟩)),
    listComments_invalidPagination dbW 10 none "newest" (some (mkRat 3 2)) (some 1)
      (Or.inr (Or.inr (Or.inr ⟨mkRat 3 2, rfl, by decide⟩)))⟩⟩

/-- C7: on valid input the route returns exactly the slice of the sorted,
filtered comments that skips `(page - 1) * limit` documents and keeps at
most `limit`; `popular` orders by `likes_count` then `created_at`
descending, `newest`/`oldest` by `created_at` descending/ascending, and
any other `sort_by` leaves store order. -/
theorem listComments_paginates (db : DB) (aid : Nat) (parentQ : Option Nat) (sortBy : String)
    (page limit : Nat) (hp : 1 ≤ page) :
    (listCommentsRoute db aid parentQ sortBy (some (page : ℚ)) (some (limit : ℚ)) =
      .ok (((resolveSort sortBy (db.comments.filter (commentMatches aid parentQ))).drop
        ((page - 1) * limit)).take limit)) ∧
    (sortBy = "popular" →
      (resolveSort sortBy (db.comments.filter (commentMatches aid parentQ))).Pairwise popularOrder) ∧
    (sortBy = "newest" →
      (resolveSort sortBy (db.comments.filter (commentMatches aid parentQ))).Pairwise newestOrder) ∧
    (sortBy = "oldest" →
      (resolveSort sortBy (db.comments.filter (commentMatches aid parentQ))).Pairwise oldestOrder) ∧
    (sortBy ≠ "popular" → sortBy ≠ "newest" → sortBy ≠ "oldest" →
      resolveSort sortBy (db.comments.filter (commentMatches aid parentQ)) =
        db.comments.filter (commentMatches aid parentQ)) := by
  refine ⟨?_, ?_, ?_, ?_, ?_⟩
  · have hlt : ¬ ((page : ℚ) < 1) := by
      apply not_lt.mpr
      exact_mod_cast hp
    have hint : ((page : ℚ)).isInt = true := by simp [Rat.isInt]
    have e1 : (⌊((page : ℚ) - 1) * (limit : ℚ)⌋).toNat = (page - 1) * limit := by
      have hc : ((page : ℚ) - 1) * (limit : ℚ) = (((page - 1) * limit : ℕ) : ℚ) := by
        push_cast [Nat.cast_sub hp]
        ring
      rw [hc, Int.floor_natCast, Int.toNat_natCast]
    have e2 : (⌊(limit : ℚ)⌋).toNat = limit := by rw [Int.floor_natCast, Int.toNat_natCast]
    simp only [listCommentsRoute, hlt, if_false, hint, if_true]
    rw [e1, e2]
  · intro hs; subst hs
    simp only [resolveSort, if_pos rfl]
    exact List.sorted_insertionSort popularOrder _
  · intro hs; subst hs
    have hne : ("newest" : String) ≠ "popular" := by decide
    simp only [resolveSort, if_neg hne, if_pos rfl]
    exact List.sorted_insertionSort newestOrder _
  · intro hs; subst hs
    have hne1 : ("oldest" : String) ≠ "popular" := by decide
    have hne2 : ("oldest" : String) ≠ "newest" := by decide
    simp only [resolveSort, if_neg hne1, if_neg hne2, if_pos rfl]
    exact List.sorted_insertionSort oldestOrder _
  · intro h1 h2 h3
    simp [resolveSort, h1, h2, h3]

/-- Fixture comment for the pagination example; `created_at` equals the
index, so `newest` ranks higher indices first. -/
def commentN (i : Nat) : Comment :=
  { id := i, article_id := 1, body := "", parent := none, likes := [],
    likes_count := 0, replies_count := 0, created_at := i, author := authW }

def db12 : DB :=
  { comments := [commentN 3, commentN 9, commentN 1, commentN 12, commentN 5, commentN 7,
                 commentN 2, commentN 11, commentN 4, commentN 8, commentN 10, commentN 6],
    articles := [] }

theorem listComments_paginates_witness :
    1 ≤ 2 ∧
    listCommentsRoute db12 1 none "newest" (some ((2 : ℕ) : ℚ)) (some ((5 : ℕ) : ℚ)) =
      .ok [commentN 7, commentN 6, commentN 5, commentN 4, commentN 3] :=
  ⟨by decide,
   ((listComments_paginates db12 1 none "newest" 2 5 (by decide)).1).trans
     (congrArg Except.ok (by decide))⟩

/-! ### Recursive comment deletion

`deleteCommentAndChildren` deletes a comment, then recursively deletes
every comment whose `parent` is the just-deleted id, counting deleted
roots and replies.  The recursion is rendered as a depth-first worklist
(`deleteSubtrees`): deleting the head id, prepending its children, and
continuing — the same documents are deleted in the same order as by the
source's nested recursion.  `fuel` bounds the recursion depth; every
processed id consumes one stored document, so `store.length` fuel always
suffices and the fuel-exhaustion branch coincides with the lookup-failure
branch (`none`) on the empty store. -/

def idsOf (l : List Comment) : List Nat := l.map Comment.id

/-- Ids of the direct children of `cid` (`Comment.find({parent: cid})`). -/
def childIds (store : List Comment) (cid : Nat) : List Nat :=
  idsOf (store.filter (fun c => c.parent == some cid))

def deleteSubtrees : Nat → List Comment → List Nat → Option (List Comment × Nat × Nat)
  | _, store, [] => some (store, 0, 0)
  | 0, _, _ :: _ => none
  | fuel + 1, store, cid :: rest =>
    match extractFirst (fun c => c.id == cid) store with
    | none => none
    | some (c, store1) =>
      match deleteSubtrees fuel store1 (childIds store1 cid ++ rest) with
      | none => none
      | some (s2, roots, reps) =>
        if c.parent.isSome then some (s2, roots, reps + 1)
        else some (s2, roots + 1, reps)

def deleteCommentAndChildren (store : List Comment) (cid : Nat) :
    Option (List Comment × Nat × Nat) :=
  deleteSubtrees store.length store [cid]

/-- Update document decrementing a parent comment's `replies_count`. -/
def parentDecUpd (c : Comment) : Comment := { c with replies_count := c.replies_count - 1 }

/-- Combined `$inc` decrementing both article counters after a delete. -/
def articleDecUpd (roots reps : Nat) (a : Article) : Article :=
  { a with comments_count := a.comments_count - roots, replies_count := a.replies_count - reps }

/-- DELETE `/replyke-comments`: look up the target, recursively delete its
subtree, decrement the parent comment's `replies_count` when the target
was a reply, then apply the combined counter decrement to the owning
article (`new: true`), failing with `ArticleNotFound` when the aggregate
is missing (deletions stay applied — there is no rollback). -/
def deleteCommentRoute (db : DB) (cid : Nat) : Except RErr Article × DB :=
  match db.comments.find? (fun c => c.id == cid) with
  | none => (.error .CommentNotFound, db)
  | some target =>
    match deleteCommentAndChildren db.comments cid with
    | none => (.error .DeletionFailed, db)
    | some (s2, roots, reps) =>
      let comments2 :=
        match target.parent with
        | some pid => updateFirst (fun c => c.id == pid) parentDecUpd s2
        | none => s2
      match updateFirstRet (fun a => a.article_id == target.article_id)
          (articleDecUpd roots reps) db.articles with
      | none => (.error .ArticleNotFound, { comments := comments2, articles := db.articles })
      | some (a2, articles2) => (.ok a2, { comments := comments2, articles := articles2 })

theorem deleteSubtrees_nil_inv {fuel : Nat} {store s2 : List Comment} {r p : Nat}
    (h : deleteSubtrees fuel store [] = some (s2, r, p)) : s2 = store ∧ r = 0 ∧ p = 0 := by
  cases fuel with
  | zero =>
    have h2 : (some (store, 0, 0) : Option (List Comment × Nat × Nat)) = some (s2, r, p) := h
    simp only [Option.some_inj, Prod.mk.injEq] at h2
    exact ⟨h2.1.symm, h2.2.1.symm, h2.2.2.symm⟩
  | succ n =>
    have h2 : (some (store, 0, 0) : Option (List Comment × Nat × Nat)) = some (s2, r, p) := h
    simp only [Option.some_inj, Prod.mk.injEq] at h2
    exact ⟨h2.1.symm, h2.2.1.symm, h2.2.2.symm⟩

theorem deleteSubtrees_zero_cons {store : List Comment} {cid : Nat} {rest : List Nat} :
    deleteSubtrees 0 store (cid :: rest) = none := by
  simp [deleteSubtrees]

theorem deleteSubtrees_cons_inv {n : Nat} {store : List Comment} {cid : Nat} {rest : List Nat}
    {s2 : List Comment} {r p : Nat}
    (h : deleteSubtrees (n + 1) store (cid :: rest) = some (s2, r, p)) :
    ∃ c l0 l1 r1 p1, store = l0 ++ c :: l1 ∧ (∀ x ∈ l0, (x.id == cid) = false) ∧
      (c.id == cid) = true ∧
      deleteSubtrees n (l0 ++ l1) (childIds (l0 ++ l1) cid ++ rest) = some (s2, r1, p1) ∧
      r = r1 + (if c.parent.isSome then 0 else 1) ∧
      p = p1 + (if c.parent.isSome then 1 else 0) := by
  have h1 : (match extractFirst (fun c => c.id == cid) store with
    | none => none
    | some (c, store1) =>
      match deleteSubtrees n store1 (childIds store1 cid ++ rest) with
      | none => none
      | some (s2, roots, reps) =>
        if c.parent.isSome then some (s2, roots, reps + 1)
        else some (s2, roots + 1, reps)) = some (s2, r, p) := h
  cases he : extractFirst (fun c => c.id == cid) store with
  | none => rw [he] at h1; cases h1
  | some v =>
    obtain ⟨c, store1⟩ := v
    rw [he] at h1
    obtain ⟨l0, l1, hst, hst1, hall, hpc⟩ := extractFirst_eq_some he
    have h2 : (match deleteSubtrees n store1 (childIds store1 cid ++ rest) with
      | none => none
      | some (s2, roots, reps) =>
        if c.parent.isSome then some (s2, roots, reps + 1)
        else some (s2, roots + 1, reps)) = some (s2, r, p) := h1
    cases hrec : deleteSubtrees n store1 (childIds store1 cid ++ rest) with
    | none => rw [hrec] at h2; cases h2
    | some w =>
      obtain ⟨s2x, r1, p1⟩ := w
      rw [hrec] at h2
      have h3 : (if c.parent.isSome then some (s2x, r1, p1 + 1)
          else some (s2x, r1 + 1, p1)) = some (s2, r, p) := h2
      subst hst1
      by_cases hpar : c.parent.isSome
      · rw [if_pos hpar] at h3
        simp only [Option.some_inj, Prod.mk.injEq] at h3
        obtain ⟨rfl, rfl, rfl⟩ := h3
        exact ⟨c, l0, l1, r1, p1, hst, hall, hpc, hrec, by simp [hpar], by simp [hpar]⟩
      · rw [if_neg hpar] at h3
        simp only [Option.some_inj, Prod.mk.injEq] at h3
        obtain ⟨rfl, rfl, rfl⟩ := h3
        exact ⟨c, l0, l1, r1, p1, hst, hall, hpc, hrec, by simp [hpar], by simp [hpar]⟩

theorem deleteSubtrees_length : ∀ {fuel : Nat} {store : List Comment} {cids : List Nat}
    {s2 : List Comment} {r p : Nat},
    deleteSubtrees fuel store cids = some (s2, r, p) → s2.length + r + p = store.length := by
  intro fuel
  induction fuel with
  | zero =>
    intro store cids s2 r p h
    cases cids with
    | nil => obtain ⟨rfl, rfl, rfl⟩ := deleteSubtrees_nil_inv h; simp
    | cons cid rest => rw [deleteSubtrees_zero_cons] at h; cases h
  | succ n ih =>
    intro store cids s2 r p h
    cases cids with
    | nil => obtain ⟨rfl, rfl, rfl⟩ := deleteSubtrees_nil_inv h; simp
    | cons cid rest =>
      obtain ⟨c, l0, l1, r1, p1, rfl, hall, hpc, hrec, hr, hp⟩ := deleteSubtrees_cons_inv h
      have hlen := ih hrec
      simp only [List.length_append, List.length_cons] at hlen ⊢
      by_cases hpar : c.parent.isSome
      · simp [hpar] at hr hp; omega
      · simp [hpar] at hr hp; omega

theorem nodup_erase_mid {l0 l1 : List Comment} {c : Comment}
    (hn : (idsOf (l0 ++ c :: l1)).Nodup) :
    (idsOf (l0 ++ l1)).Nodup ∧ c.id ∉ idsOf (l0 ++ l1) := by
  have he : idsOf (l0 ++ c :: l1) = idsOf l0 ++ c.id :: idsOf l1 := by simp [idsOf]
  rw [he] at hn
  have h2 := List.nodup_middle.mp hn
  rw [List.nodup_cons] at h2
  constructor
  · simpa [idsOf] using h2.2
  · simpa [idsOf] using h2.1

/-- Deleting never adds documents, no worklist id survives, and no
surviving comment points (via `parent`) at a deleted document. -/
theorem deleteSubtrees_spec : ∀ {fuel : Nat} {store : List Comment} {cids : List Nat}
    {s2 : List Comment} {r p : Nat},
    (idsOf store).Nodup →
    deleteSubtrees fuel store cids = some (s2, r, p) →
    s2.Sublist store ∧
    (∀ i ∈ cids, ∀ x ∈ s2, x.id ≠ i) ∧
    (∀ x ∈ s2, ∀ d ∈ store, d ∉ s2 → x.parent ≠ some d.id) := by
  intro fuel
  induction fuel with
  | zero =>
    intro store cids s2 r p hn h
    cases cids with
    | nil =>
      obtain ⟨rfl, rfl, rfl⟩ := deleteSubtrees_nil_inv h
      exact ⟨List.Sublist.refl _, by simp, fun x _ d hd hdn => (hdn hd).elim⟩
    | cons cid rest => rw [deleteSubtrees_zero_cons] at h; cases h
  | succ n ih =>
    intro store cids s2 r p hn h
    cases cids with
    | nil =>
      obtain ⟨rfl, rfl, rfl⟩ := deleteSubtrees_nil_inv h
      exact ⟨List.Sublist.refl _, by simp, fun x _ d hd hdn => (hdn hd).elim⟩
    | cons cid rest =>
      obtain ⟨c, l0, l1, r1, p1, rfl, hall, hpc, hrec, hr, hp⟩ := deleteSubtrees_cons_inv h
      have hceq : c.id = cid := by simpa using hpc
      obtain ⟨hn1, hcnot⟩ := nodup_erase_mid hn
      obtain ⟨hsub, hcids, hparents⟩ := ih hn1 hrec
      have hsub0 : (l0 ++ l1).Sublist (l0 ++ c :: l1) :=
        List.Sublist.append_left (List.sublist_cons_self c l1) l0
      refine ⟨hsub.trans hsub0, ?_, ?_⟩
      · intro i hi x hx
        rcases List.mem_cons.mp hi with rfl | hi
        · intro hxe
          apply hcnot
          rw [hceq, ← hxe]
          exact List.mem_map_of_mem _ (hsub.subset hx)
        · exact hcids i (List.mem_append_right _ hi) x hx
      · intro x hx d hd hdn
        by_cases hdm : d ∈ l0 ++ l1
        · exact hparents x hx d hdm hdn
        · have hdc : d = c := by
            rcases List.mem_append.mp hd with h0 | h0
            · exact absurd (List.mem_append_left _ h0) hdm
            · rcases List.mem_cons.mp h0 with h1 | h0
              · exact h1
              · exact absurd (List.mem_append_right _ h0) hdm
          subst hdc
          intro hxp
          have hx1 : x ∈ l0 ++ l1 := hsub.subset hx
          have hxc : x.id ∈ childIds (l0 ++ l1) cid := by
            apply List.mem_map_of_mem
            apply List.mem_filter.mpr
            refine ⟨hx1, ?_⟩
            simp [hxp, hceq]
          exact hcids x.id (List.mem_append_left _ hxc) x hx rfl

/-- The root counter counts exactly the deleted parentless documents and
the reply counter exactly the deleted parented documents. -/
theorem deleteSubtrees_counts : ∀ {fuel : Nat} {store : List Comment} {cids : List Nat}
    {s2 : List Comment} {r p : Nat},
    (idsOf store).Nodup →
    deleteSubtrees fuel store cids = some (s2, r, p) →
    r = (store.filter (fun x => decide (x ∉ s2) && !x.parent.isSome)).length ∧
    p = (store.filter (fun x => decide (x ∉ s2) && x.parent.isSome)).length := by
  intro fuel
  induction fuel with
  | zero =>
    intro store cids s2 r p hn h
    cases cids with
    | nil =>
      obtain ⟨rfl, rfl, rfl⟩ := deleteSubtrees_nil_inv h
      constructor <;> · rw [List.filter_eq_nil_iff.mpr (fun a ha => by simp [ha])]; rfl
    | cons cid rest => rw [deleteSubtrees_zero_cons] at h; cases h
  | succ n ih =>
    intro store cids s2 r p hn h
    cases cids with
    | nil =>
      obtain ⟨rfl, rfl, rfl⟩ := deleteSubtrees_nil_inv h
      constructor <;> · rw [List.filter_eq_nil_iff.mpr (fun a ha => by simp [ha])]; rfl
    | cons cid rest =>
      obtain ⟨c, l0, l1, r1, p1, rfl, hall, hpc, hrec, hr, hp⟩ := deleteSubtrees_cons_inv h
      obtain ⟨hn1, hcnot⟩ := nodup_erase_mid hn
      obtain ⟨hsub, -, -⟩ := deleteSubtrees_spec hn1 hrec
      obtain ⟨ihr, ihp⟩ := ih hn1 hrec
      have hcnotin : c ∉ l0 ++ l1 := fun hm => hcnot (List.mem_map_of_mem _ hm)
      have hcs2 : c ∉ s2 := fun hm => hcnotin (hsub.subset hm)
      have hdc : (decide (c ∉ s2)) = true := by simp [hcs2]
      rw [List.filter_append, List.length_append] at ihr ihp
      constructor
      · rw [List.filter_append, List.filter_cons, List.length_append]
        by_cases hpar : c.parent.isSome
        · simp only [hpar, Bool.not_true, Bool.and_false, Bool.false_eq_true, if_false]
          simp only [hpar, if_true, if_false] at hr
          omega
        · simp only [Bool.not_eq_true] at hpar
          simp only [hpar, hdc, Bool.not_false, Bool.and_true, Bool.true_and, if_true,
            List.length_cons]
          simp only [hpar, Bool.false_eq_true, if_true, if_false] at hr
          omega
      · rw [List.filter_append, List.filter_cons, List.length_append]
        by_cases hpar : c.parent.isSome
        · simp only [hpar, hdc, Bool.and_true, Bool.true_and, if_true, List.length_cons]
          simp only [hpar, if_true] at hp
          omega
        · simp only [Bool.not_eq_true] at hpar
          simp only [hpar, Bool.and_false, Bool.false_eq_true, if_false]
          simp only [hpar, Bool.false_eq_true, if_false] at hp
          omega

/-- Every id on the worklist whose document has a parent contributes to the
reply counter, never to the root counter. -/
theorem deleteSubtrees_rootsZero : ∀ {fuel : Nat} {store : List Comment} {cids : List Nat}
    {s2 : List Comment} {r p : Nat},
    (idsOf store).Nodup →
    (∀ i ∈ cids, ∀ x ∈ store, x.id = i → x.parent.isSome = true) →
    deleteSubtrees fuel store cids = some (s2, r, p) → r = 0 := by
  intro fuel
  induction fuel with
  | zero =>
    intro store cids s2 r p hn hpar h
    cases cids with
    | nil => exact (deleteSubtrees_nil_inv h).2.1
    | cons cid rest => rw [deleteSubtrees_zero_cons] at h; cases h
  | succ n ih =>
    intro store cids s2 r p hn hpar h
    cases cids with
    | nil => exact (deleteSubtrees_nil_inv h).2.1
    | cons cid rest =>
      obtain ⟨c, l0, l1, r1, p1, rfl, hall, hpc, hrec, hr, hp⟩ := deleteSubtrees_cons_inv h
      have hceq : c.id = cid := by simpa using hpc
      obtain ⟨hn1, hcnot⟩ := nodup_erase_mid hn
      have hcmem : c ∈ l0 ++ c :: l1 := by simp
      have hcsome : c.parent.isSome = true := hpar cid (by simp) c hcmem hceq
      have hsub0 : (l0 ++ l1).Sublist (l0 ++ c :: l1) :=
        List.Sublist.append_left (List.sublist_cons_self c l1) l0
      have hr1 : r1 = 0 := by
        apply ih hn1 ?_ hrec
        intro i hi x hx hxe
        rcases List.mem_append.mp hi with hi | hi
        · obtain ⟨y, hy, hyi⟩ := List.mem_map.mp hi
          obtain ⟨hy1, hy2⟩ := List.mem_filter.mp hy
          have hxy : x = y := List.inj_on_of_nodup_map hn1 hx hy1 (by rw [hxe, hyi])
          subst hxy
          have : x.parent = some cid := by simpa using hy2
          simp [this]
        · exact hpar i (List.mem_cons_of_mem _ hi) x (hsub0.subset hx) hxe
      rw [hr1, hcsome] at hr
      simpa using hr

/-! ### Totality of the recursive delete

`InSubtree store root i` says the comment id `i` lies in the subtree of
`root`: its chain of `parent` references (through documents present in
`store`) reaches `root`.  On a store with unique ids, deleting the subtree
of an existing comment never hits the lookup-failure branch. -/

inductive InSubtree (store : List Comment) (root : Nat) : Nat → Prop
  | base : InSubtree store root root
  | step (c : Comment) (pid : Nat) : c ∈ store → c.parent = some pid →
      InSubtree store root pid → InSubtree store root c.id

theorem InSubtree.mono {s1 s2 : List Comment} {root i : Nat} (hs : ∀ c, c ∈ s1 → c ∈ s2)
    (h : InSubtree s1 root i) : InSubtree s2 root i := by
  induction h with
  | base => exact .base
  | step c pid hc hp _ ih => exact .step c pid (hs c hc) hp ih

theorem InSubtree.chain {s : List Comment} {root mid i : Nat}
    (h1 : InSubtree s root mid) (h2 : InSubtree s mid i) : InSubtree s root i := by
  induction h2 with
  | base => exact h1
  | step c pid hc hp _ ih => exact .step c pid hc hp ih

theorem InSubtree.mem_ids {s : List Comment} {root i : Nat}
    (h : InSubtree s root i) (hne : i ≠ root) : i ∈ idsOf s := by
  cases h with
  | base => exact absurd rfl hne
  | step c pid hc hp h => exact List.mem_map_of_mem _ hc

theorem InSubtree.inv {s : List Comment} {root i : Nat}
    (h : InSubtree s root i) (hne : i ≠ root) :
    ∃ c ∈ s, c.id = i ∧ ∃ pid, c.parent = some pid ∧ InSubtree s root pid := by
  cases h with
  | base => exact absurd rfl hne
  | step c pid hc hp h => exact ⟨c, hc, rfl, pid, hp, h⟩

theorem deleteSubtrees_cons_eq_of_extract {n : Nat} {store store1 : List Comment} {c : Comment}
    {cid : Nat} {rest : List Nat}
    (he : extractFirst (fun c => c.id == cid) store = some (c, store1)) :
    deleteSubtrees (n + 1) store (cid :: rest) =
      match deleteSubtrees n store1 (childIds store1 cid ++ rest) with
      | none => none
      | some (s2, roots, reps) =>
        if c.parent.isSome then some (s2, roots, reps + 1)
        else some (s2, roots + 1, reps) := by
  have h1 : deleteSubtrees (n + 1) store (cid :: rest) =
      (match extractFirst (fun c => c.id == cid) store with
       | none => none
       | some (c, store1) =>
         match deleteSubtrees n store1 (childIds store1 cid ++ rest) with
         | none => none
         | some (s2, roots, reps) =>
           if c.parent.isSome then some (s2, roots, reps + 1)
           else some (s2, roots + 1, reps)) := rfl
  rw [h1, he]

/-- On a store with unique ids, deleting a worklist of present, pairwise
subtree-disjoint ids never fails, given fuel at least the store size. -/
theorem deleteSubtrees_total : ∀ {fuel : Nat} {store : List Comment} {cids : List Nat},
    store.length ≤ fuel →
    (idsOf store).Nodup →
    cids.Nodup →
    (∀ i ∈ cids, i ∈ idsOf store) →
    List.Pairwise (fun i j => ¬ InSubtree store i j ∧ ¬ InSubtree store j i) cids →
    ∃ out, deleteSubtrees fuel store cids = some out := by
  intro fuel
  induction fuel with
  | zero =>
    intro store cids hlen hn hnd hmem hpw
    cases cids with
    | nil => exact ⟨(store, 0, 0), rfl⟩
    | cons cid rest =>
      have hst : store = [] := List.length_eq_zero.mp (Nat.le_zero.mp hlen)
      subst hst
      exact absurd (hmem cid (by simp)) (by simp [idsOf])
  | succ n ih =>
    intro store cids hlen hn hnd hmem hpw
    cases cids with
    | nil => exact ⟨(store, 0, 0), rfl⟩
    | cons cid rest =>
      have hcid : cid ∈ idsOf store := hmem cid (by simp)
      obtain ⟨c0, hc0, hc0id⟩ := List.mem_map.mp hcid
      cases he : extractFirst (fun c => c.id == cid) store with
      | none =>
        have := extractFirst_eq_none.mp he c0 hc0
        simp [hc0id] at this
      | some v =>
        obtain ⟨c, store1⟩ := v
        obtain ⟨l0, l1, hst, hst1, hall, hpc⟩ := extractFirst_eq_some he
        have hceq : c.id = cid := by simpa using hpc
        subst hst
        subst hst1
        obtain ⟨hn1, hcnot⟩ := nodup_erase_mid hn
        have hcid1 : cid ∉ idsOf (l0 ++ l1) := hceq ▸ hcnot
        have hsub0 : (l0 ++ l1).Sublist (l0 ++ c :: l1) :=
          List.Sublist.append_left (List.sublist_cons_self c l1) l0
        have hchild : ∀ j ∈ childIds (l0 ++ l1) cid,
            ∃ y ∈ (l0 ++ l1), y.id = j ∧ y.parent = some cid := by
          intro j hj
          obtain ⟨y, hy, hyj⟩ := List.mem_map.mp hj
          obtain ⟨hy1, hy2⟩ := List.mem_filter.mp hy
          exact ⟨y, hy1, hyj, by simpa using hy2⟩
        have hchildstep : ∀ j ∈ childIds (l0 ++ l1) cid, InSubtree (l0 ++ c :: l1) cid j := by
          intro j hj
          obtain ⟨y, hy, hyj, hyp⟩ := hchild j hj
          exact hyj ▸ InSubtree.step y cid (hsub0.subset hy) hyp InSubtree.base
        have hlen1 : (l0 ++ l1).length ≤ n := by
          simp only [List.length_append, List.length_cons] at hlen ⊢
          omega
        have hmem1 : ∀ i ∈ childIds (l0 ++ l1) cid ++ rest, i ∈ idsOf (l0 ++ l1) := by
          intro i hi
          rcases List.mem_append.mp hi with hi | hi
          · obtain ⟨y, hy, hyj, -⟩ := hchild i hi
            exact hyj ▸ List.mem_map_of_mem _ hy
          · have hi0 : i ∈ idsOf (l0 ++ c :: l1) := hmem i (List.mem_cons_of_mem _ hi)
            have hine : i ≠ cid := fun hEq => (List.nodup_cons.mp hnd).1 (hEq ▸ hi)
            obtain ⟨x, hx, hxi⟩ := List.mem_map.mp hi0
            rcases List.mem_append.mp hx with h0 | h0
            · exact hxi ▸ List.mem_map_of_mem _ (List.mem_append_left _ h0)
            · rcases List.mem_cons.mp h0 with h1 | h0
              · subst h1
                exact absurd (by rw [← hxi, hceq]) hine
              · exact hxi ▸ List.mem_map_of_mem _ (List.mem_append_right _ h0)
        have hndchild : (childIds (l0 ++ l1) cid).Nodup := by
          have hs : (childIds (l0 ++ l1) cid).Sublist (idsOf (l0 ++ l1)) :=
            (List.filter_sublist _).map _
          exact List.Nodup.sublist hs hn1
        have hrestnd := (List.nodup_cons.mp hnd).2
        have hcidrest := (List.nodup_cons.mp hnd).1
        have hdisj : ∀ j ∈ childIds (l0 ++ l1) cid, j ∉ rest := by
          intro j hj hjr
          exact ((List.pairwise_cons.mp hpw).1 j hjr).1 (hchildstep j hj)
        have hnd2 : (childIds (l0 ++ l1) cid ++ rest).Nodup :=
          List.Nodup.append hndchild hrestnd hdisj
        have hmono : ∀ a b, InSubtree (l0 ++ l1) a b → InSubtree (l0 ++ c :: l1) a b :=
          fun a b h => h.mono (fun x hx => hsub0.subset hx)
        have hpw1 : List.Pairwise
            (fun i j => ¬ InSubtree (l0 ++ l1) i j ∧ ¬ InSubtree (l0 ++ l1) j i)
            (childIds (l0 ++ l1) cid ++ rest) := by
          rw [List.pairwise_append]
          have key : ∀ i ∈ childIds (l0 ++ l1) cid, ∀ j ∈ childIds (l0 ++ l1) cid,
              i ≠ j → ¬ InSubtree (l0 ++ l1) i j := by
            intro i hi j hj hne hreach
            obtain ⟨y, hy, hyj, hyp⟩ := hchild j hj
            obtain ⟨x, hx, hxj, pid, hxp, hreach2⟩ := hreach.inv (Ne.symm hne)
            have hxy : x = y := List.inj_on_of_nodup_map hn1 hx hy (by rw [hxj, hyj])
            subst hxy
            have hpid : pid = cid := by rw [hxp] at hyp; exact Option.some_inj.mp hyp
            rw [hpid] at hreach2
            rcases eq_or_ne cid i with h | h
            · obtain ⟨yi, hyi, hyii, -⟩ := hchild i hi
              apply hcid1
              rw [h]
              exact hyii ▸ List.mem_map_of_mem _ hyi
            · exact hcid1 (hreach2.mem_ids h)
          refine ⟨?_, ?_, ?_⟩
          · exact hndchild.imp_of_mem
              (fun {a b} ha hb hne => ⟨key a ha b hb hne, key b hb a ha (Ne.symm hne)⟩)
          · exact ((List.pairwise_cons.mp hpw).2).imp
              (fun {a b} hab => ⟨fun h => hab.1 (hmono _ _ h), fun h => hab.2 (hmono _ _ h)⟩)
          · intro i hi j hj
            obtain ⟨yi, hyi, hyii, hyip⟩ := hchild i hi
            have hij : i ≠ j := fun hEq => hdisj i hi (hEq ▸ hj)
            have hjcid : j ≠ cid := fun hEq => hcidrest (hEq ▸ hj)
            constructor
            · intro hreach
              exact ((List.pairwise_cons.mp hpw).1 j hj).1
                ((hchildstep i hi).chain (hmono _ _ hreach))
            · intro hreach
              obtain ⟨x, hx, hxi, pid, hxp, hreach2⟩ := hreach.inv hij
              have hxy : x = yi := List.inj_on_of_nodup_map hn1 hx hyi (by rw [hxi, hyii])
              subst hxy
              have hpid : pid = cid := by rw [hxp] at hyip; exact Option.some_inj.mp hyip
              subst hpid
              exact hcid1 (hreach2.mem_ids (Ne.symm hjcid))
        obtain ⟨out, hout⟩ := ih hlen1 hn1 hnd2 hmem1 hpw1
        obtain ⟨s2x, r1, p1⟩ := out
        rw [deleteSubtrees_cons_eq_of_extract he, hout]
        by_cases hpar : c.parent.isSome
        · refine ⟨(s2x, r1, p1 + 1), ?_⟩
          show (if c.parent.isSome then some (s2x, r1, p1 + 1)
            else some (s2x, r1 + 1, p1)) = some (s2x, r1, p1 + 1)
          rw [if_pos hpar]
        · refine ⟨(s2x, r1 + 1, p1), ?_⟩
          show (if c.parent.isSome then some (s2x, r1, p1 + 1)
            else some (s2x, r1 + 1, p1)) = some (s2x, r1 + 1, p1)
          rw [if_neg hpar]

/-- Deleting an existing comment on a store with unique ids always
completes. -/
theorem deleteCommentAndChildren_total {store : List Comment} {cid : Nat} {target : Comment}
    (hn : (idsOf store).Nodup)
    (hf : store.find? (fun c => c.id == cid) = some target) :
    ∃ out, deleteCommentAndChildren store cid = some out := by
  apply deleteSubtrees_total (Nat.le_refl _) hn (by simp)
  · intro i hi
    rcases List.mem_singleton.mp hi with rfl
    obtain ⟨l0, l1, rfl, hall, hpt⟩ := find?_eq_some_decomp hf
    have : target.id = i := by simpa using hpt
    exact this ▸ List.mem_map_of_mem _ (by simp)
  · simp

/-! ### The deletion claims -/

/-- C10: at most one deleted node counts as first-level — the target
itself, exactly when it has no parent — and the reply counter equals the
total number of deleted nodes minus the first-level counter. -/
theorem deleteCount_classification (store : List Comment) (cid : Nat) (target : Comment)
    (hn : (idsOf store).Nodup)
    (hf : store.find? (fun c => c.id == cid) = some target) :
    ∃ s2 roots reps, deleteCommentAndChildren store cid = some (s2, roots, reps) ∧
      roots ≤ 1 ∧ (roots = 1 ↔ target.parent = none) ∧
      reps = (store.length - s2.length) - roots := by
  obtain ⟨⟨s2, roots, reps⟩, hdel⟩ := deleteCommentAndChildren_total hn hf
  refine ⟨s2, roots, reps, hdel, ?_⟩
  have hlen2 : s2.length + roots + reps = store.length := deleteSubtrees_length hdel
  cases hsl : store.length with
  | zero =>
    have hempty : store = [] := List.length_eq_zero.mp hsl
    subst hempty
    simp at hf
  | succ n =>
    have hdel2 : deleteSubtrees (n + 1) store [cid] = some (s2, roots, reps) := by
      rw [← hsl]; exact hdel
    obtain ⟨c, l0, l1, r1, p1, hdec, hall, hpc, hrec, hr, hp⟩ := deleteSubtrees_cons_inv hdel2
    have hfc : store.find? (fun x => x.id == cid) = some c := by
      rw [hdec]; exact find?_append_first l1 hall hpc
    have htc : target = c := by
      rw [hf] at hfc
      exact Option.some_inj.mp hfc
    have hn1 : (idsOf (l0 ++ l1)).Nodup ∧ c.id ∉ idsOf (l0 ++ l1) := by
      rw [hdec] at hn; exact nodup_erase_mid hn
    have hr1 : r1 = 0 := by
      apply deleteSubtrees_rootsZero hn1.1 ?_ hrec
      intro i hi x hx hxe
      rcases List.mem_append.mp hi with hi | hi
      · obtain ⟨y, hy, hyi⟩ := List.mem_map.mp hi
        obtain ⟨hy1, hy2⟩ := List.mem_filter.mp hy
        have hxy : x = y := List.inj_on_of_nodup_map hn1.1 hx hy1 (by rw [hxe, hyi])
        subst hxy
        have hxp : x.parent = some cid := by simpa using hy2
        simp [hxp]
      · cases hi
    rw [hr1] at hr
    rw [htc]
    by_cases hpar : c.parent.isSome
    · simp [hpar] at hr
      refine ⟨by omega, ?_, by omega⟩
      constructor
      · intro h0
        exact absurd (hr ▸ h0) (by decide)
      · intro hnone
        rw [hnone] at hpar
        simp at hpar
    · simp [hpar] at hr
      have hnone : c.parent = none := Option.not_isSome_iff_eq_none.mp hpar
      refine ⟨by omega, ⟨fun _ => hnone, fun _ => hr⟩, by omega⟩

/-- C2: the article's `comments_count` drops by exactly the number of
deleted parentless comments and `replies_count` by exactly the number of
deleted parented comments (all descendants, not only direct children), in
one combined update returning the updated aggregate; a missing aggregate
makes the operation fail with `ArticleNotFound`. -/
theorem deleteComment_counters (db : DB) (cid : Nat) (target : Comment)
    (hn : (idsOf db.comments).Nodup)
    (hf : db.comments.find? (fun c => c.id == cid) = some target) :
    ∃ s2 roots reps, deleteCommentAndChildren db.comments cid = some (s2, roots, reps) ∧
      roots = (db.comments.filter (fun x => decide (x ∉ s2) && !x.parent.isSome)).length ∧
      reps = (db.comments.filter (fun x => decide (x ∉ s2) && x.parent.isSome)).length ∧
      (∀ a l0 l1, db.articles = l0 ++ a :: l1 →
        (∀ x ∈ l0, (x.article_id == target.article_id) = false) →
        (a.article_id == target.article_id) = true →
        (deleteCommentRoute db cid).1 = .ok (articleDecUpd roots reps a) ∧
        (deleteCommentRoute db cid).2.articles = l0 ++ articleDecUpd roots reps a :: l1) ∧
      (db.articles.find? (fun a => a.article_id == target.article_id) = none →
        (deleteCommentRoute db cid).1 = .error .ArticleNotFound) := by
  obtain ⟨⟨s2, roots, reps⟩, hdel⟩ := deleteCommentAndChildren_total hn hf
  obtain ⟨hroots, hreps⟩ := deleteSubtrees_counts hn hdel
  refine ⟨s2, roots, reps, hdel, hroots, hreps, ?_, ?_⟩
  · intro a l0 l1 hdec hall hpa
    have hup := @updateFirstRet_append Article (fun x => x.article_id == target.article_id) (articleDecUpd roots reps) a l0 l1 hall hpa
    constructor
    · simp only [deleteCommentRoute, hf, hdel, hdec, hup]
    · simp only [deleteCommentRoute, hf, hdel, hdec, hup]
  · intro hfnone
    have hnone : updateFirstRet (fun a => a.article_id == target.article_id)
        (articleDecUpd roots reps) db.articles = none :=
      updateFirstRet_eq_none.mpr (fun x hx => by simpa using List.find?_eq_none.mp hfnone x hx)
    simp only [deleteCommentRoute, hf, hdel, hnone]

theorem updateFirst_parentDec_ids (pid : Nat) (l : List Comment) :
    idsOf (updateFirst (fun c => c.id == pid) parentDecUpd l) = idsOf l ∧
    ∀ x ∈ updateFirst (fun c => c.id == pid) parentDecUpd l,
      ∃ y ∈ l, x.id = y.id ∧ x.parent = y.parent := by
  unfold updateFirst
  cases hu : updateFirstRet (fun c => c.id == pid) parentDecUpd l with
  | none => exact ⟨rfl, fun x hx => ⟨x, hx, rfl, rfl⟩⟩
  | some v =>
    obtain ⟨a, l2⟩ := v
    obtain ⟨l0, x, l1, rfl, ha, rfl, hall, hpx⟩ := updateFirstRet_eq_some hu
    constructor
    · simp [idsOf, parentDecUpd]
    · intro z hz
      rcases List.mem_append.mp hz with h0 | h0
      · exact ⟨z, List.mem_append_left _ h0, rfl, rfl⟩
      · rcases List.mem_cons.mp h0 with h1 | h0
        · subst h1
          exact ⟨x, by simp, rfl, rfl⟩
        · exact ⟨z, List.mem_append_right _ (List.mem_cons_of_mem _ h0), rfl, rfl⟩

/-- C1: deleting an existing comment removes it and every transitive
descendant from the comment store, and afterwards no surviving comment's
`parent` is the id of any deleted comment. -/
theorem deleteComment_removesSubtree (db : DB) (cid : Nat) (target : Comment)
    (hn : (idsOf db.comments).Nodup)
    (hf : db.comments.find? (fun c => c.id == cid) = some target) :
    (∀ i, InSubtree db.comments cid i → i ∉ idsOf (deleteCommentRoute db cid).2.comments) ∧
    (∀ x ∈ (deleteCommentRoute db cid).2.comments, ∀ pid, x.parent = some pid →
      pid ∈ idsOf db.comments → pid ∈ idsOf (deleteCommentRoute db cid).2.comments) := by
  obtain ⟨⟨s2, roots, reps⟩, hdel⟩ := deleteCommentAndChildren_total hn hf
  obtain ⟨hsub, hcids, hparents⟩ := deleteSubtrees_spec hn hdel
  have htmem : target ∈ db.comments := List.mem_of_find?_eq_some hf
  have htid : target.id = cid := by simpa using List.find?_some hf
  have hcidgone : ∀ x ∈ s2, x.id ≠ cid := fun x hx => hcids cid (by simp) x hx
  have hP3 : ∀ x ∈ s2, ∀ pid, x.parent = some pid → pid ∈ idsOf db.comments →
      pid ∈ idsOf s2 := by
    intro x hx pid hxp hpidmem
    obtain ⟨d, hd, hdid⟩ := List.mem_map.mp hpidmem
    by_cases hds : d ∈ s2
    · exact hdid ▸ List.mem_map_of_mem _ hds
    · exact absurd (by rw [hxp, hdid]) (hparents x hx d hd hds)
  have hsubtree_s2 : ∀ i, InSubtree db.comments cid i → i ∉ idsOf s2 := by
    intro i hi
    induction hi with
    | base =>
      intro hmem
      obtain ⟨x, hx, hxid⟩ := List.mem_map.mp hmem
      exact hcidgone x hx hxid
    | step c2 pid hc2 hp2 hsub2 ih =>
      intro hmem
      obtain ⟨x, hx, hxid⟩ := List.mem_map.mp hmem
      have hx0 : x ∈ db.comments := hsub.subset hx
      have hxc : x = c2 := List.inj_on_of_nodup_map hn hx0 hc2 hxid
      subst hxc
      have hpidmem : pid ∈ idsOf db.comments := by
        rcases eq_or_ne pid cid with rfl | hne
        · exact htid ▸ List.mem_map_of_mem _ htmem
        · exact hsub2.mem_ids hne
      exact ih (hP3 x hx pid hp2 hpidmem)
  have hroute : (deleteCommentRoute db cid).2.comments =
      match target.parent with
      | some pid => updateFirst (fun c => c.id == pid) parentDecUpd s2
      | none => s2 := by
    simp only [deleteCommentRoute, hf, hdel]
    cases hart : updateFirstRet (fun a => a.article_id == target.article_id)
        (articleDecUpd roots reps) db.articles with
    | none => rfl
    | some v =>
      obtain ⟨a2, as2⟩ := v
      rfl
  have htrans : idsOf (deleteCommentRoute db cid).2.comments = idsOf s2 ∧
      ∀ x ∈ (deleteCommentRoute db cid).2.comments,
        ∃ y ∈ s2, x.id = y.id ∧ x.parent = y.parent := by
    rw [hroute]
    cases target.parent with
    | none => exact ⟨rfl, fun x hx => ⟨x, hx, rfl, rfl⟩⟩
    | some pid => exact updateFirst_parentDec_ids pid s2
  constructor
  · intro i hi
    rw [htrans.1]
    exact hsubtree_s2 i hi
  · intro x hx pid hxp hpidmem
    obtain ⟨y, hy, hxy_id, hxy_par⟩ := htrans.2 x hx
    rw [htrans.1]
    exact hP3 y hy pid (by rw [← hxy_par]; exact hxp) hpidmem

/-! ### Deletion fixtures and witnesses: a root (id 1) with two direct
replies (ids 2, 3), one grandchild reply (id 4 under 2), and an unrelated
root (id 5) that must survive. -/

def cDel1 : Comment :=
  { id := 1, article_id := 20, body := "a", parent := none, likes := [],
    likes_count := 0, replies_count := 2, created_at := 0, author := authW }

def cDel2 : Comment :=
  { id := 2, article_id := 20, body := "b", parent := some 1, likes := [],
    likes_count := 0, replies_count := 1, created_at := 1, author := authW }

def cDel3 : Comment :=
  { id := 3, article_id := 20, body := "c", parent := some 1, likes := [],
    likes_count := 0, replies_count := 0, created_at := 2, author := authW }

def cDel4 : Comment :=
  { id := 4, article_id := 20, body := "d", parent := some 2, likes := [],
    likes_count := 0, replies_count := 0, created_at := 3, author := authW }

def cDel5 : Comment :=
  { id := 5, article_id := 20, body := "e", parent := none, likes := [],
    likes_count := 0, replies_count := 0, created_at := 4, author := authW }

def aDel : Article :=
  { article_id := 20, likes := [], likes_count := 0, comments_count := 2, replies_count := 3 }

def dbDel : DB := { comments := [cDel1, cDel2, cDel3, cDel4, cDel5], articles := [aDel] }

theorem deleteComment_removesSubtree_witness :
    ((idsOf dbDel.comments).Nodup ∧ dbDel.comments.find? (fun c => c.id == 1) = some cDel1) ∧
    ((∀ i, InSubtree dbDel.comments 1 i → i ∉ idsOf (deleteCommentRoute dbDel 1).2.comments) ∧
      (∀ x ∈ (deleteCommentRoute dbDel 1).2.comments, ∀ pid, x.parent = some pid →
        pid ∈ idsOf dbDel.comments → pid ∈ idsOf (deleteCommentRoute dbDel 1).2.comments)) ∧
    (deleteCommentRoute dbDel 1).2.comments = [cDel5] :=
  ⟨⟨by decide, rfl⟩, deleteComment_removesSubtree dbDel 1 cDel1 (by decide) rfl, by decide⟩

theorem deleteComment_counters_witness :
    ((idsOf dbDel.comments).Nodup ∧ dbDel.comments.find? (fun c => c.id == 1) = some cDel1) ∧
    (∃ s2 roots reps, deleteCommentAndChildren dbDel.comments 1 = some (s2, roots, reps) ∧
      roots = (dbDel.comments.filter (fun x => decide (x ∉ s2) && !x.parent.isSome)).length ∧
      reps = (dbDel.comments.filter (fun x => decide (x ∉ s2) && x.parent.isSome)).length ∧
      (∀ a l0 l1, dbDel.articles = l0 ++ a :: l1 →
        (∀ x ∈ l0, (x.article_id == cDel1.article_id) = false) →
        (a.article_id == cDel1.article_id) = true →
        (deleteCommentRoute dbDel 1).1 = .ok (articleDecUpd roots reps a) ∧
        (deleteCommentRoute dbDel 1).2.articles = l0 ++ articleDecUpd roots reps a :: l1) ∧
      (dbDel.articles.find? (fun a => a.article_id == cDel1.article_id) = none →
        (deleteCommentRoute dbDel 1).1 = .error .ArticleNotFound)) ∧
    (deleteCommentRoute dbDel 1).2.articles =
      [{ article_id := 20, likes := [], likes_count := 0,
         comments_count := 1, replies_count := 0 }] :=
  ⟨⟨by decide, rfl⟩, deleteComment_counters dbDel 1 cDel1 (by decide) rfl, by decide⟩

theorem deleteCount_classification_witness :
    ((idsOf dbDel.comments).Nodup ∧ dbDel.comments.find? (fun c => c.id == 1) = some cDel1) ∧
    (∃ s2 roots reps, deleteCommentAndChildren dbDel.comments 1 = some (s2, roots, reps) ∧
      roots ≤ 1 ∧ (roots = 1 ↔ cDel1.parent = none) ∧
      reps = (dbDel.comments.length - s2.length) - roots) ∧
    deleteCommentAndChildren dbDel.comments 1 = some ([cDel5], 1, 3) :=
  ⟨⟨by decide, rfl⟩, deleteCount_classification dbDel.comments 1 cDel1 (by decide) rfl,
   by decide⟩

end Replyke
